import Mathlib

/-!
# Dashboard personalisation of `pages/index.js`

A shallow embedding of the dashboard layout logic of the `Home` page
(`src/rogue-thi-app/pages/index.js`): the card catalog `ALL_DASHBOARD_CARDS`,
the `load` effect (legacy migration, reconciliation against the catalog,
first-run branch) and the four mutators `changeDashboardEntries`,
`moveDashboardEntry`, `hideDashboardEntry`, `bringBackDashboardEntry`.

Modelling conventions
* A JavaScript array is a `List`; an array slot that may hold `undefined`
  is an `Option`.
* A JavaScript number used as an index is an `Int` (`indexOf` and
  `findIndex` return `-1`, `slice` and `splice` accept negative offsets).
* A call either completes normally or throws; both outcomes carry the state
  reached, so that what was written before a throw stays visible.
* `JSON.stringify` is embedded for arrays of strings. `JSON.parse` is a
  platform function and is taken as a parameter `JSON_parse`; `none` stands
  for a thrown `SyntaxError`, `some ks` for the array of strings `ks`. Stored
  texts that parse to any other JSON value are outside the model.
* JavaScript strings are modelled by `String`; strings holding unpaired
  surrogates have no counterpart.
* `window.matchMedia('(max-width: 768px)').matches` is the parameter `narrow`.
* The `card` render callback of a catalog entry plays no part in the layout
  logic and is left out of `Card`.
-/

namespace Dashboard

/-! ## JavaScript built-ins -/

/-- The kinds of exception the embedded code can raise. -/
inductive JSError
  | SyntaxError
  | TypeError
  | ReferenceError
  deriving DecidableEq, Repr

/-- Outcome of running a piece of code from a state: normal completion or a
thrown exception, each with the state reached. -/
inductive Completion (σ : Type)
  | normal (s : σ)
  | thrown (e : JSError) (s : σ)
  deriving DecidableEq, Repr

/-- Relative index resolution shared by `Array.prototype.slice` and
`Array.prototype.splice`: a negative offset counts from the end, and the
result is clamped to `[0, len]`. -/
def relIndex (len : Nat) (i : Int) : Nat :=
  if i < 0 then ((len : Int) + i).toNat else min i.toNat len

/-- `xs.slice(start, stop)`. -/
def slice {α : Type} (xs : List α) (start stop : Int) : List α :=
  let k := relIndex xs.length start
  let final := relIndex xs.length stop
  (xs.drop k).take (final - k)

/-- `xs.slice(start)`: the end defaults to the length. -/
def sliceFrom {α : Type} (xs : List α) (start : Int) : List α :=
  slice xs start (xs.length : Int)

/-- The array left behind by `xs.splice(start, deleteCount, ...items)`. -/
def splice {α : Type} (xs : List α) (start : Int) (deleteCount : Nat) (items : List α) :
    List α :=
  let k := relIndex xs.length start
  let d := min deleteCount (xs.length - k)
  xs.take k ++ items ++ xs.drop (k + d)

/-- JS `xs[i]` for an integer `i`: `none` is `undefined`. -/
def elemAt {α : Type} (xs : List α) (i : Int) : Option α :=
  if i < 0 then none else xs[i.toNat]?

/-- `xs.findIndex(p)`: position of the first element satisfying `p`, or `-1`. -/
def findIndex {α : Type} (p : α → Bool) : List α → Int
  | [] => -1
  | x :: xs =>
    if p x then 0
    else
      let r := findIndex p xs
      if r < 0 then -1 else r + 1

/-- `xs.indexOf(v)` on an array of strings (strict equality). -/
def indexOf (xs : List String) (v : String) : Int :=
  findIndex (fun x => x == v) xs

/-- Whether the character sequence `t` occurs contiguously in `s`. -/
def includesChars : List Char → List Char → Bool
  | [], t => t.isEmpty
  | c :: cs, t => t.isPrefixOf (c :: cs) || includesChars cs t

/-- `s.includes(t)` of `String.prototype`. -/
def includes (s t : String) : Bool :=
  includesChars s.data t.data

/-- Lower-case hexadecimal digit of `n < 16`. -/
def hexDigit (n : Nat) : Char :=
  "0123456789abcdef".data.getD n '0'

/-- Escaping of one character by `JSON.stringify` (QuoteJSONString). -/
def quoteChar (c : Char) : List Char :=
  if c = Char.ofNat 34 then [Char.ofNat 92, Char.ofNat 34]
  else if c = Char.ofNat 92 then [Char.ofNat 92, Char.ofNat 92]
  else if c = Char.ofNat 8 then [Char.ofNat 92, 'b']
  else if c = Char.ofNat 12 then [Char.ofNat 92, 'f']
  else if c = Char.ofNat 10 then [Char.ofNat 92, 'n']
  else if c = Char.ofNat 13 then [Char.ofNat 92, 'r']
  else if c = Char.ofNat 9 then [Char.ofNat 92, 't']
  else if c.toNat < 32 then
    [Char.ofNat 92, 'u', '0', '0', hexDigit (c.toNat / 16), hexDigit (c.toNat % 16)]
  else [c]

/-- Escaping of a character sequence. -/
def quoteChars : List Char → List Char
  | [] => []
  | c :: cs => quoteChar c ++ quoteChars cs

/-- `JSON.stringify` of one string: the escaped text between double quotes. -/
def QuoteJSONString (s : String) : List Char :=
  Char.ofNat 34 :: (quoteChars s.data ++ [Char.ofNat 34])

/-- The comma-separated quoted elements of an array of strings. -/
def joinQuoted : List String → List Char
  | [] => []
  | [k] => QuoteJSONString k
  | k :: k2 :: ks => QuoteJSONString k ++ ',' :: joinQuoted (k2 :: ks)

/-- `JSON.stringify(ks)` for an array of strings `ks`. -/
def JSON_stringify (ks : List String) : String :=
  String.mk ('[' :: (joinQuoted ks ++ [']']))

/-! ## A reader for stored key sequences

`JSON.parse` itself is not part of the page. `JSON_parse_keys` is a reference
reader for the JSON texts that denote an array of strings; it instantiates the
parameter `JSON_parse` on concrete inputs. It answers `none` on every other
text. -/

/-- States of the reader: before the opening bracket, expecting an element
(`first` allows the closing bracket of an empty array), inside a string, after
a backslash, inside the four digits of a unicode escape, after a string, and
after the closing bracket. -/
inductive Reader
  | start
  | element (keys : List String) (first : Bool)
  | text (keys : List String) (acc : List Char)
  | escape (keys : List String) (acc : List Char)
  | unicode (keys : List String) (acc : List Char) (digits : List Nat)
  | separator (keys : List String)
  | finished (keys : List String)

/-- JSON white space. -/
def isJSONSpace (c : Char) : Bool :=
  c = ' ' || c = Char.ofNat 9 || c = Char.ofNat 10 || c = Char.ofNat 13

/-- Value of a hexadecimal digit. -/
def hexValue (c : Char) : Option Nat :=
  if 48 ≤ c.toNat ∧ c.toNat ≤ 57 then some (c.toNat - 48)
  else if 97 ≤ c.toNat ∧ c.toNat ≤ 102 then some (c.toNat - 87)
  else if 65 ≤ c.toNat ∧ c.toNat ≤ 70 then some (c.toNat - 55)
  else none

/-- The character named by a single-letter escape. -/
def unescape (c : Char) : Option Char :=
  if c = Char.ofNat 34 then some (Char.ofNat 34)
  else if c = Char.ofNat 92 then some (Char.ofNat 92)
  else if c = '/' then some '/'
  else if c = 'b' then some (Char.ofNat 8)
  else if c = 'f' then some (Char.ofNat 12)
  else if c = 'n' then some (Char.ofNat 10)
  else if c = 'r' then some (Char.ofNat 13)
  else if c = 't' then some (Char.ofNat 9)
  else none

/-- One character of input. -/
def Reader.step : Reader → Char → Option Reader
  | .start, c =>
    if isJSONSpace c then some .start
    else if c = '[' then some (.element [] true)
    else none
  | .element keys first, c =>
    if isJSONSpace c then some (.element keys first)
    else if c = Char.ofNat 34 then some (.text keys [])
    else if c = ']' && first then some (.finished keys)
    else none
  | .text keys acc, c =>
    if c = Char.ofNat 34 then some (.separator (keys ++ [String.mk acc.reverse]))
    else if c = Char.ofNat 92 then some (.escape keys acc)
    else if c.toNat < 32 then none
    else some (.text keys (c :: acc))
  | .escape keys acc, c =>
    if c = 'u' then some (.unicode keys acc [])
    else
      match unescape c with
      | some d => some (.text keys (d :: acc))
      | none => none
  | .unicode keys acc digits, c =>
    match hexValue c with
    | none => none
    | some d =>
      let ds := digits ++ [d]
      if ds.length = 4 then
        let n := ds.foldl (fun n d => 16 * n + d) 0
        if 55296 ≤ n ∧ n ≤ 57343 then none
        else some (.text keys (Char.ofNat n :: acc))
      else some (.unicode keys acc ds)
  | .separator keys, c =>
    if isJSONSpace c then some (.separator keys)
    else if c = ',' then some (.element keys false)
    else if c = ']' then some (.finished keys)
    else none
  | .finished keys, c =>
    if isJSONSpace c then some (.finished keys) else none

/-- Runs the reader over the input; only a finished reader has a result. -/
def readKeys : Reader → List Char → Option (List String)
  | .finished keys, [] => some keys
  | _, [] => none
  | r, c :: cs =>
    match r.step c with
    | some r2 => readKeys r2 cs
    | none => none

/-- Reference reader of a JSON array of strings. -/
def JSON_parse_keys (s : String) : Option (List String) :=
  readKeys .start s.data

/-! ## Catalog -/

/-- A catalog entry: `key`, `label` and the optional `desktopOnly` flag
(absent in the source means falsy). -/
structure Card where
  key : String
  label : String
  desktopOnly : Bool := false
  deriving DecidableEq, Repr

/-- The catalog of the page, in source order. -/
def ALL_DASHBOARD_CARDS : List Card :=
  [ { key := "install", label := "Installation" },
    { key := "discord", label := "Discord-Server" },
    { key := "timetable", label := "Stundenplan", desktopOnly := true },
    { key := "mensa", label := "Mensa Speiseplan", desktopOnly := true },
    { key := "mobility", label := "Mobilität" },
    { key := "calendar", label := "Termine" },
    { key := "rooms", label := "Raumplan", desktopOnly := true },
    { key := "library", label := "Bibliothek" },
    { key := "grades", label := "Noten & Fächer" },
    { key := "personal", label := "Persönliche Daten" },
    { key := "lecturers", label := "Dozenten" } ]

/-- The three-widget catalog `{a, b, c}` used by the examples of the
specification. -/
def catalogABC : List Card :=
  [ { key := "a", label := "A" }, { key := "b", label := "B" }, { key := "c", label := "C" } ]

/-- The keys of a list of cards, `entries.map(x => x.key)`. -/
def keysOf (entries : List Card) : List String :=
  entries.map (fun x => x.key)

/-! ## Persisted state and page state -/

/-- The two `localStorage` items of the dashboard. `writes` is a ghost counter
of assignments to either item. -/
structure LocalStorage where
  personalizedDashboard : Option String
  personalizedDashboardHidden : Option String
  writes : Nat
  deriving DecidableEq, Repr

/-- Assignment `localStorage.personalizedDashboard = v`. -/
def LocalStorage.setShown (ls : LocalStorage) (v : String) : LocalStorage :=
  { ls with personalizedDashboard := some v, writes := ls.writes + 1 }

/-- Assignment `localStorage.personalizedDashboardHidden = v`. -/
def LocalStorage.setHidden (ls : LocalStorage) (v : String) : LocalStorage :=
  { ls with personalizedDashboardHidden := some v, writes := ls.writes + 1 }

/-- The layout part of the state of `Home` together with `localStorage`. -/
structure Home where
  shownDashboardEntries : List Card
  hiddenDashboardEntries : List Card
  localStorage : LocalStorage
  deriving DecidableEq, Repr

/-- State right after `useState(ALL_DASHBOARD_CARDS)` and `useState([])`. -/
def Home.initial (cards : List Card) (ls : LocalStorage) : Home :=
  { shownDashboardEntries := cards, hiddenDashboardEntries := [], localStorage := ls }

/-- JS truthiness of a `localStorage` item: present and not the empty string. -/
def truthy : Option String → Bool
  | none => false
  | some s => s != ""

/-- `JSON.parse(item)`: an absent item is `undefined`, which is not JSON. -/
def parseItem (JSON_parse : String → Option (List String)) : Option String → Option (List String)
  | none => none
  | some raw => JSON_parse raw

/-! ## `load` -/

/-- The legacy block of `load` (the inner `if` on `includes('hidden-below')`),
run on the raw value `raw` of `localStorage.personalizedDashboard`. -/
def legacyMigration (JSON_parse : String → Option (List String)) (raw : String)
    (ls : LocalStorage) : Completion LocalStorage :=
  if includes raw "hidden-below" then
    match JSON_parse raw with
    | none => .thrown .SyntaxError ls
    | some oldFormat =>
      let hiddenIndex := indexOf oldFormat "hidden-below"
      let ls1 := ls.setShown (JSON_stringify (slice oldFormat 0 hiddenIndex))
      let ls2 := ls1.setHidden (JSON_stringify (sliceFrom oldFormat (hiddenIndex + 1)))
      .normal ls2
  else .normal ls

/-- The chain `.map(key => cards.find(x => x.key === key)).filter(x => !!x)`. -/
def resolve (cards : List Card) (keys : List String) : List Card :=
  (keys.map (fun key => cards.find? (fun x => x.key == key))).reduceOption

/-- The `forEach` over the catalog that pushes every card found in neither
list onto `entries`; the test sees the cards pushed so far. -/
def pushUnknown (cards entries hiddenEntries : List Card) : List Card :=
  cards.foldl
    (fun entries card =>
      if (entries.find? (fun x => x.key == card.key)).isNone &&
          (hiddenEntries.find? (fun x => x.key == card.key)).isNone then
        entries ++ [card]
      else entries)
    entries

/-- Reconciliation of parsed key sequences against the catalog: the pair
`(entries, hiddenEntries)` handed to the two state setters. -/
def reconcile (cards : List Card) (shownKeys hiddenKeys : List String) :
    List Card × List Card :=
  let entries := resolve cards shownKeys
  let hiddenEntries := resolve cards hiddenKeys
  (pushUnknown cards entries hiddenEntries, hiddenEntries)

/-- The layout part of the `load` effect of `Home`. -/
def load (JSON_parse : String → Option (List String)) (cards : List Card) (narrow : Bool)
    (st : Home) : Completion Home :=
  if truthy st.localStorage.personalizedDashboard then
    match legacyMigration JSON_parse (st.localStorage.personalizedDashboard.getD "")
        st.localStorage with
    | .thrown e ls => .thrown e { st with localStorage := ls }
    | .normal ls =>
      match parseItem JSON_parse ls.personalizedDashboard with
      | none => .thrown .SyntaxError { st with localStorage := ls }
      | some shownKeys =>
        match parseItem JSON_parse ls.personalizedDashboardHidden with
        | none => .thrown .SyntaxError { st with localStorage := ls }
        | some hiddenKeys =>
          let r := reconcile cards shownKeys hiddenKeys
          .normal { shownDashboardEntries := r.1, hiddenDashboardEntries := r.2,
                    localStorage := ls }
  else if narrow then
    -- `setDashboardEntries` is not declared anywhere: resolving the callee
    -- throws before any argument is evaluated or any setter runs.
    .thrown .ReferenceError st
  else .normal st

/-! ## Mutators -/

/-- The storage reached from `ls` once `changeDashboardEntries` has written
the keys of `L` and of `H`. -/
def writtenStorage (ls : LocalStorage) (L H : List Card) : LocalStorage :=
  (ls.setShown (JSON_stringify (keysOf L))).setHidden (JSON_stringify (keysOf H))

/-- The layout invariants of the data model for a state of the page: shown and
hidden share no key, no key occurs twice in shown followed by hidden, and the
keys held are exactly the keys of the catalog. -/
def LayoutInvariant (cards : List Card) (st : Home) : Prop :=
  (∀ k ∈ keysOf st.shownDashboardEntries, k ∉ keysOf st.hiddenDashboardEntries) ∧
  (keysOf (st.shownDashboardEntries ++ st.hiddenDashboardEntries)).Nodup ∧
  (∀ k ∈ keysOf (st.shownDashboardEntries ++ st.hiddenDashboardEntries), k ∈ keysOf cards) ∧
  (∀ k ∈ keysOf cards, k ∈ keysOf (st.shownDashboardEntries ++ st.hiddenDashboardEntries))

instance (cards : List Card) (st : Home) : Decidable (LayoutInvariant cards st) := by
  unfold LayoutInvariant
  exact inferInstance


/-- `entries.map(x => x.key)` over an array whose slots may hold `undefined`:
reading `.key` of `undefined` throws a `TypeError` (`none`). -/
def keysOfSlots : List (Option Card) → Option (List String)
  | [] => some []
  | none :: _ => none
  | some x :: xs => (keysOfSlots xs).map (fun ks => x.key :: ks)

/-- `changeDashboardEntries(entries, hiddenEntries)`: both key sequences are
written to `localStorage`, then both state setters run. Each `JSON.stringify`
argument is evaluated before its assignment happens. -/
def changeDashboardEntries (entries hiddenEntries : List (Option Card)) (st : Home) :
    Completion Home :=
  match keysOfSlots entries with
  | none => .thrown .TypeError st
  | some ks =>
    let ls1 := st.localStorage.setShown (JSON_stringify ks)
    match keysOfSlots hiddenEntries with
    | none => .thrown .TypeError { st with localStorage := ls1 }
    | some hs =>
      let ls2 := ls1.setHidden (JSON_stringify hs)
      .normal { shownDashboardEntries := entries.reduceOption,
                hiddenDashboardEntries := hiddenEntries.reduceOption,
                localStorage := ls2 }

/-- `moveDashboardEntry(oldIndex, diff)`. -/
def moveDashboardEntry (oldIndex diff : Int) (st : Home) : Completion Home :=
  let newIndex := oldIndex + diff
  if newIndex < 0 || newIndex ≥ (st.shownDashboardEntries.length : Int) then
    .normal st
  else
    let entries := st.shownDashboardEntries.map some
    let entry := (elemAt entries oldIndex).join
    let entries1 := splice entries oldIndex 1 []
    let entries2 := splice entries1 newIndex 0 [entry]
    changeDashboardEntries entries2 (st.hiddenDashboardEntries.map some) st

/-- `hideDashboardEntry(key)`. -/
def hideDashboardEntry (key : String) (st : Home) : Completion Home :=
  let entries := st.shownDashboardEntries.map some
  let hiddenEntries := st.hiddenDashboardEntries.map some
  let index := findIndex (fun x => x.key == key) st.shownDashboardEntries
  if index ≥ 0 then
    changeDashboardEntries (splice entries index 1 [])
      (hiddenEntries ++ [(elemAt entries index).join]) st
  else
    changeDashboardEntries entries hiddenEntries st

/-- `bringBackDashboardEntry(index)`. -/
def bringBackDashboardEntry (index : Int) (st : Home) : Completion Home :=
  let entries := st.shownDashboardEntries.map some
  let hiddenEntries := st.hiddenDashboardEntries.map some
  changeDashboardEntries (entries ++ [(elemAt hiddenEntries index).join])
    (splice hiddenEntries index 1 []) st

/-- The reset button: `changeDashboardEntries(ALL_DASHBOARD_CARDS, [])`. -/
def resetToDefault (cards : List Card) (st : Home) : Completion Home :=
  changeDashboardEntries (cards.map some) [] st


/-! ## Reconciliation lemmas -/

theorem find?_key_eq_none (l : List Card) (k : String) :
    l.find? (fun x => x.key == k) = none ↔ k ∉ keysOf l := by
  rw [List.find?_eq_none]
  simp [keysOf]

theorem find?_key_some {l : List Card} {k : String} {c : Card}
    (h : l.find? (fun x => x.key == k) = some c) : c.key = k ∧ c ∈ l := by
  have h1 := List.find?_some h
  have h2 := List.mem_of_find?_eq_some h
  exact ⟨by simpa using h1, h2⟩

theorem resolve_nil (cards : List Card) : resolve cards [] = [] := rfl

theorem resolve_cons (cards : List Card) (k : String) (ks : List String) :
    resolve cards (k :: ks) =
      match cards.find? (fun x => x.key == k) with
      | some c => c :: resolve cards ks
      | none => resolve cards ks := by
  unfold resolve
  cases h : cards.find? (fun x => x.key == k) <;> simp [List.reduceOption_cons_of_some, List.reduceOption_cons_of_none, h]

theorem keysOf_resolve (cards : List Card) (ks : List String) :
    keysOf (resolve cards ks) = ks.filter (fun k => decide (k ∈ keysOf cards)) := by
  induction ks with
  | nil => rfl
  | cons k ks ih =>
    rw [resolve_cons]
    cases h : cards.find? (fun x => x.key == k) with
    | none =>
      have hk := (find?_key_eq_none cards k).1 h
      simp [List.filter_cons, hk, ih]
    | some c =>
      have hc := find?_key_some h
      have hk : k ∈ keysOf cards := by
        rw [← hc.1]; exact List.mem_map_of_mem _ hc.2
      rw [List.filter_cons_of_pos (by simpa using hk), ← ih]
      simp [keysOf, hc.1]

theorem mem_resolve {cards : List Card} {ks : List String} {c : Card}
    (h : c ∈ resolve cards ks) : c ∈ cards := by
  induction ks with
  | nil => simp [resolve_nil] at h
  | cons k ks ih =>
    rw [resolve_cons] at h
    cases hf : cards.find? (fun x => x.key == k) with
    | none => rw [hf] at h; exact ih h
    | some d =>
      rw [hf] at h
      rcases List.mem_cons.1 h with h1 | h1
      · rw [h1]; exact (find?_key_some hf).2
      · exact ih h1


theorem find?_key_isNone (l : List Card) (k : String) :
    (l.find? (fun x => x.key == k)).isNone = true ↔ k ∉ keysOf l := by
  rw [Option.isNone_iff_eq_none]
  exact find?_key_eq_none l k

/-- One iteration of the `forEach` callback of `pushUnknown`. -/
theorem pushUnknown_cons (c : Card) (cs entries hiddenEntries : List Card) :
    pushUnknown (c :: cs) entries hiddenEntries =
      pushUnknown cs
        (if c.key ∉ keysOf entries ∧ c.key ∉ keysOf hiddenEntries then entries ++ [c]
         else entries) hiddenEntries := by
  unfold pushUnknown
  rw [List.foldl_cons]
  congr 1
  have hcond : ((entries.find? (fun x => x.key == c.key)).isNone &&
      (hiddenEntries.find? (fun x => x.key == c.key)).isNone) = true ↔
      (c.key ∉ keysOf entries ∧ c.key ∉ keysOf hiddenEntries) := by
    rw [Bool.and_eq_true, find?_key_isNone, find?_key_isNone]
  by_cases hf : c.key ∉ keysOf entries ∧ c.key ∉ keysOf hiddenEntries
  · rw [if_pos hf, if_pos (hcond.2 hf)]
  · rw [if_neg hf, if_neg (fun h => hf (hcond.1 h))]

theorem pushUnknown_nil (entries hiddenEntries : List Card) :
    pushUnknown [] entries hiddenEntries = entries := rfl

theorem pushUnknown_eq_filter (cs : List Card) :
    ∀ entries hiddenEntries : List Card, (keysOf cs).Nodup →
      pushUnknown cs entries hiddenEntries =
        entries ++ cs.filter
          (fun c => decide (c.key ∉ keysOf entries ∧ c.key ∉ keysOf hiddenEntries)) := by
  induction cs with
  | nil => intro e h _; simp [pushUnknown_nil]
  | cons c cs ih =>
    intro e h hnd
    have hnd2 : (keysOf cs).Nodup := by
      simp [keysOf] at hnd ⊢; exact hnd.2
    have hc : c.key ∉ keysOf cs := by
      simp [keysOf] at hnd ⊢; exact hnd.1
    rw [pushUnknown_cons]
    by_cases hf : c.key ∉ keysOf e ∧ c.key ∉ keysOf h
    · rw [if_pos hf, ih _ _ hnd2, List.filter_cons_of_pos (by simpa using hf)]
      simp only [List.append_assoc, List.singleton_append]
      congr 2
      apply List.filter_congr
      intro x hx
      have hxc : x.key ≠ c.key := by
        intro e2; apply hc; rw [← e2]; exact List.mem_map_of_mem _ hx
      simp [keysOf, hxc]
    · rw [if_neg hf, ih _ _ hnd2, List.filter_cons_of_neg (by simpa using hf)]

theorem mem_keysOf_pushUnknown (cs : List Card) :
    ∀ (entries hiddenEntries : List Card) (k : String),
      (k ∈ keysOf (pushUnknown cs entries hiddenEntries) ∨ k ∈ keysOf hiddenEntries) ↔
        (k ∈ keysOf entries ∨ k ∈ keysOf hiddenEntries ∨ k ∈ keysOf cs) := by
  induction cs with
  | nil => intro e h k; simp [pushUnknown_nil, keysOf]
  | cons c cs ih =>
    intro e h k
    rw [pushUnknown_cons, ih]
    by_cases hf : c.key ∉ keysOf e ∧ c.key ∉ keysOf h
    · rw [if_pos hf]
      simp only [keysOf, List.map_append, List.mem_append, List.map_cons, List.map_nil,
        List.mem_singleton, List.mem_cons]
      tauto
    · rw [if_neg hf]
      have : c.key ∈ keysOf e ∨ c.key ∈ keysOf h := by tauto
      simp only [keysOf, List.map_cons, List.mem_cons] at this ⊢
      constructor
      · tauto
      · rintro (h1 | h1 | h1 | h1)
        · tauto
        · tauto
        · subst h1; tauto
        · tauto

theorem mem_pushUnknown (cs : List Card) :
    ∀ (entries hiddenEntries : List Card) (x : Card),
      x ∈ pushUnknown cs entries hiddenEntries → x ∈ entries ∨ x ∈ cs := by
  induction cs with
  | nil => intro e h x hx; exact Or.inl hx
  | cons c cs ih =>
    intro e h x hx
    rw [pushUnknown_cons] at hx
    rcases ih _ _ _ hx with h1 | h1
    · split at h1
      · rcases List.mem_append.1 h1 with h2 | h2
        · exact Or.inl h2
        · right; simp at h2; simp [h2]
      · exact Or.inl h1
    · right; exact List.mem_cons_of_mem _ h1

theorem nodup_keysOf_pushUnknown (cs : List Card) :
    ∀ (entries hiddenEntries : List Card),
      (keysOf (pushUnknown cs entries hiddenEntries) ++ keysOf hiddenEntries).Nodup ↔
        (keysOf entries ++ keysOf hiddenEntries).Nodup := by
  induction cs with
  | nil => intro e h; simp [pushUnknown_nil]
  | cons c cs ih =>
    intro e h
    rw [pushUnknown_cons, ih]
    by_cases hf : c.key ∉ keysOf e ∧ c.key ∉ keysOf h
    · rw [if_pos hf]
      obtain ⟨h1, h2⟩ := hf
      simp only [keysOf] at h1 h2 ⊢
      simp only [List.map_append, List.map_cons, List.map_nil, List.nodup_append,
        List.nodup_cons, List.disjoint_left, List.mem_append, List.mem_singleton]
      constructor
      · rintro ⟨⟨a, b, c1⟩, d, e1⟩
        exact ⟨a, d, fun x hx => e1 (Or.inl hx)⟩
      · rintro ⟨a, d, e1⟩
        refine ⟨⟨a, ⟨by simp, List.nodup_nil⟩, ?_⟩, d, ?_⟩
        · intro x hx hx2; subst hx2; exact h1 hx
        · rintro x (hx | hx)
          · exact e1 hx
          · subst hx; exact h2
    · rw [if_neg hf]


/-! ## Reconciliation -/

/-- C1: for a catalog with unique keys, the reconciled shown list is the
persisted shown keys that resolve in the catalog, in persisted order, followed
by the catalog widgets whose key is in neither resolved list, in catalog order;
the reconciled hidden list is exactly the persisted hidden keys that resolve,
in persisted order; and every reconciled entry is a catalog widget. -/
theorem reconcile_appends_new_widgets (cards : List Card) (shownKeys hiddenKeys : List String)
    (hcat : (keysOf cards).Nodup) :
    keysOf (reconcile cards shownKeys hiddenKeys).1 =
        shownKeys.filter (fun k => decide (k ∈ keysOf cards)) ++
          (keysOf cards).filter (fun k =>
            decide (k ∉ shownKeys.filter (fun k => decide (k ∈ keysOf cards)) ∧
                    k ∉ hiddenKeys.filter (fun k => decide (k ∈ keysOf cards)))) ∧
      keysOf (reconcile cards shownKeys hiddenKeys).2 =
        hiddenKeys.filter (fun k => decide (k ∈ keysOf cards)) ∧
      ∀ c ∈ (reconcile cards shownKeys hiddenKeys).1 ++ (reconcile cards shownKeys hiddenKeys).2,
        c ∈ cards := by
  refine ⟨?_, ?_, ?_⟩
  · show keysOf (pushUnknown cards (resolve cards shownKeys) (resolve cards hiddenKeys)) = _
    rw [pushUnknown_eq_filter cards _ _ hcat]
    have hmap : ∀ (l : List Card) (p : String → Bool),
        keysOf (l.filter (fun c => p c.key)) = (keysOf l).filter p := by
      intro l p
      unfold keysOf
      rw [List.filter_map]
      rfl
    unfold keysOf at hmap ⊢
    rw [List.map_append]
    have h1 := keysOf_resolve cards shownKeys
    have h2 := keysOf_resolve cards hiddenKeys
    unfold keysOf at h1 h2
    rw [hmap cards (fun k => decide (k ∉ List.map (fun x => x.key) (resolve cards shownKeys) ∧
      k ∉ List.map (fun x => x.key) (resolve cards hiddenKeys))), h1, h2]
  · exact keysOf_resolve cards hiddenKeys
  · intro c hc
    rcases List.mem_append.1 hc with h | h
    · rcases mem_pushUnknown cards _ _ c h with h1 | h1
      · exact mem_resolve h1
      · exact h1
    · exact mem_resolve h

/-- Instance of C1 on the example of the specification: persisted shown
`["a"]`, hidden `["b"]`, catalog `{a, b, c}` reconciles to shown `["a","c"]`,
hidden `["b"]`. -/
theorem reconcile_appends_new_widgets_witness :
    (keysOf catalogABC).Nodup ∧
      keysOf (reconcile catalogABC ["a"] ["b"]).1 = ["a", "c"] ∧
      keysOf (reconcile catalogABC ["a"] ["b"]).2 = ["b"] :=
  ⟨by decide,
   (reconcile_appends_new_widgets catalogABC ["a"] ["b"] (by decide)).1.trans (by decide),
   (reconcile_appends_new_widgets catalogABC ["a"] ["b"] (by decide)).2.1.trans (by decide)⟩

/-- C2: after reconciliation a key occurs in shown or hidden exactly when it is
a key of the catalog, whatever the persisted sequences held. -/
theorem reconcile_complete (cards : List Card) (shownKeys hiddenKeys : List String)
    (k : String) :
    (k ∈ keysOf (reconcile cards shownKeys hiddenKeys).1 ∨
        k ∈ keysOf (reconcile cards shownKeys hiddenKeys).2) ↔
      k ∈ keysOf cards := by
  show (k ∈ keysOf (pushUnknown cards (resolve cards shownKeys) (resolve cards hiddenKeys)) ∨
      k ∈ keysOf (resolve cards hiddenKeys)) ↔ _
  rw [mem_keysOf_pushUnknown, keysOf_resolve, keysOf_resolve]
  simp only [List.mem_filter, decide_eq_true_eq]
  tauto

/-- C3, as stated, fails: a key persisted twice is resolved twice. With the
page catalog, persisted shown `["mensa","mensa"]` and hidden `["mensa"]`
reconcile to lists that repeat a key and share a key. -/
theorem reconcile_keeps_duplicates :
    ¬ (List.Disjoint (keysOf (reconcile ALL_DASHBOARD_CARDS ["mensa", "mensa"] ["mensa"]).1)
          (keysOf (reconcile ALL_DASHBOARD_CARDS ["mensa", "mensa"] ["mensa"]).2) ∧
        (keysOf ((reconcile ALL_DASHBOARD_CARDS ["mensa", "mensa"] ["mensa"]).1 ++
          (reconcile ALL_DASHBOARD_CARDS ["mensa", "mensa"] ["mensa"]).2)).Nodup) := by
  intro h
  exact absurd h.2 (by decide)

/-- C3, amended: reconciled shown and hidden share no key and repeat no key
exactly when no catalog key occurs twice in the persisted shown keys followed
by the persisted hidden keys. -/
theorem reconcile_disjoint_unique_iff (cards : List Card) (shownKeys hiddenKeys : List String) :
    (List.Disjoint (keysOf (reconcile cards shownKeys hiddenKeys).1)
          (keysOf (reconcile cards shownKeys hiddenKeys).2) ∧
        (keysOf ((reconcile cards shownKeys hiddenKeys).1 ++
          (reconcile cards shownKeys hiddenKeys).2)).Nodup) ↔
      ((shownKeys ++ hiddenKeys).filter (fun k => decide (k ∈ keysOf cards))).Nodup := by
  have hkeys : ∀ a b : List Card, keysOf (a ++ b) = keysOf a ++ keysOf b := by
    intro a b; simp [keysOf]
  rw [hkeys]
  show (List.Disjoint (keysOf (pushUnknown cards (resolve cards shownKeys)
        (resolve cards hiddenKeys))) (keysOf (resolve cards hiddenKeys)) ∧
      (keysOf (pushUnknown cards (resolve cards shownKeys) (resolve cards hiddenKeys)) ++
        keysOf (resolve cards hiddenKeys)).Nodup) ↔ _
  have hiff := nodup_keysOf_pushUnknown cards (resolve cards shownKeys)
    (resolve cards hiddenKeys)
  rw [List.filter_append, ← keysOf_resolve, ← keysOf_resolve]
  constructor
  · exact fun h => hiff.1 h.2
  · intro h
    exact ⟨(List.nodup_append.1 (hiff.2 h)).2.2, hiff.2 h⟩


/-! ## Lemmas on the array built-ins -/

theorem relIndex_natCast (len n : Nat) (h : n ≤ len) : relIndex len (n : Int) = n := by
  unfold relIndex
  have : ¬ ((n : Int) < 0) := by omega
  rw [if_neg this]
  simp [h]

theorem splice_at_length {α : Type} (A R : List α) (d : Nat) (items : List α) :
    splice (A ++ R) (A.length : Int) d items = A ++ items ++ R.drop d := by
  unfold splice
  rw [relIndex_natCast _ _ (by simp)]
  simp only [List.length_append, Nat.add_sub_cancel_left]
  rw [List.take_left, List.drop_append]
  congr 1
  by_cases h : d ≤ R.length
  · rw [Nat.min_eq_left h]
  · have h2 : R.length ≤ d := by omega
    rw [Nat.min_eq_right h2, List.drop_length, List.drop_eq_nil_of_le h2]

theorem splice_map {α β : Type} (f : α → β) (xs : List α) (start : Int) (d : Nat)
    (items : List α) :
    splice (xs.map f) start d (items.map f) = (splice xs start d items).map f := by
  unfold splice
  simp [List.map_take, List.map_drop]

theorem elemAt_at_length {α : Type} (A B : List α) (x : α) :
    elemAt (A ++ x :: B) (A.length : Int) = some x := by
  unfold elemAt
  have : ¬ ((A.length : Int) < 0) := by omega
  rw [if_neg this, Int.toNat_ofNat, List.getElem?_append_right (Nat.le_refl _)]
  simp

theorem elemAt_map_some_join {α : Type} (xs : List α) (i : Int) :
    (elemAt (xs.map some) i).join = elemAt xs i := by
  unfold elemAt
  split
  · rfl
  · rw [List.getElem?_map]
    cases xs[i.toNat]? <;> rfl

theorem elemAt_out_of_range {α : Type} (xs : List α) (i : Int)
    (h : i < 0 ∨ (xs.length : Int) ≤ i) : elemAt xs i = none := by
  unfold elemAt
  split
  · rfl
  · rename_i hneg
    rw [List.getElem?_eq_none_iff]
    omega

theorem findIndex_neg_iff {α : Type} (p : α → Bool) (l : List α) :
    (findIndex p l < 0 → ∀ a ∈ l, p a = false) ∧ (-1 ≤ findIndex p l) := by
  induction l with
  | nil => simp [findIndex]
  | cons x xs ih =>
    unfold findIndex
    by_cases hx : p x = true
    · simp [hx]
    · simp only [hx, Bool.false_eq_true, if_false]
      by_cases hr : findIndex p xs < 0
      · simp only [hr, if_true]
        refine ⟨fun _ => ?_, by omega⟩
        intro a ha
        rcases List.mem_cons.1 ha with h | h
        · rw [h]; simpa using hx
        · exact ih.1 hr a h
      · simp only [hr, if_false]
        refine ⟨fun h => ?_, by omega⟩
        omega

theorem findIndex_append_cons {α : Type} (p : α → Bool) (A B : List α) (x : α)
    (hA : ∀ a ∈ A, p a = false) (hx : p x = true) :
    findIndex p (A ++ x :: B) = (A.length : Int) := by
  induction A with
  | nil => simp [findIndex, hx]
  | cons a A ih =>
    have ha : p a = false := hA a (List.mem_cons_self _ _)
    have ih2 := ih (fun b hb => hA b (List.mem_cons_of_mem _ hb))
    have hstep : findIndex p (a :: (A ++ x :: B)) =
        if findIndex p (A ++ x :: B) < 0 then -1 else findIndex p (A ++ x :: B) + 1 := by
      simp [findIndex, ha]
    have : ¬ ((A.length : Int) < 0) := by omega
    rw [List.cons_append, hstep, ih2, if_neg this]
    simp

theorem findIndex_split {α : Type} (p : α → Bool) (l : List α) (h : 0 ≤ findIndex p l) :
    ∃ A x B, l = A ++ x :: B ∧ findIndex p l = (A.length : Int) ∧ p x = true ∧
      ∀ a ∈ A, p a = false := by
  induction l with
  | nil => simp [findIndex] at h
  | cons y ys ih =>
    by_cases hy : p y = true
    · exact ⟨[], y, ys, rfl, by simp [findIndex, hy], hy, by simp⟩
    · have hy2 : p y = false := by simpa using hy
      have hr : ¬ (findIndex p ys < 0) := by
        intro hneg
        simp [findIndex, hy2, hneg] at h
      obtain ⟨A, x, B, hl, _, hx, hA⟩ := ih (by omega)
      refine ⟨y :: A, x, B, by rw [hl]; rfl, ?_, hx, ?_⟩
      · rw [hl]
        exact findIndex_append_cons p (y :: A) B x
          (by
            intro a ha
            rcases List.mem_cons.1 ha with h1 | h1
            · rw [h1]; exact hy2
            · exact hA a h1) hx
      · intro a ha
        rcases List.mem_cons.1 ha with h1 | h1
        · rw [h1]; exact hy2
        · exact hA a h1

/-! ## Lemmas on `changeDashboardEntries` -/

theorem keysOfSlots_map_some (l : List Card) : keysOfSlots (l.map some) = some (keysOf l) := by
  induction l with
  | nil => rfl
  | cons a l ih => simp [keysOfSlots, ih, keysOf]

theorem keysOfSlots_append_none (l : List Card) (r : List (Option Card)) :
    keysOfSlots (l.map some ++ none :: r) = none := by
  induction l with
  | nil => rfl
  | cons a l ih => simp [keysOfSlots, ih]

theorem reduceOption_map_some (l : List Card) : (l.map some).reduceOption = l := by
  induction l with
  | nil => rfl
  | cons a l ih => simp [List.reduceOption_cons_of_some, ih]

theorem changeDashboardEntries_defined (L H : List Card) (st : Home) :
    changeDashboardEntries (L.map some) (H.map some) st =
      .normal { shownDashboardEntries := L, hiddenDashboardEntries := H,
                localStorage := (st.localStorage.setShown (JSON_stringify (keysOf L))).setHidden
                  (JSON_stringify (keysOf H)) } := by
  unfold changeDashboardEntries
  rw [keysOfSlots_map_some, keysOfSlots_map_some]
  simp only [reduceOption_map_some]


/-! ## Lemmas on the mutators -/

theorem moveDashboardEntry_down (st : Home) (A B : List Card) (p q : Card)
    (h : st.shownDashboardEntries = A ++ p :: q :: B) :
    moveDashboardEntry (A.length : Int) 1 st =
      .normal { shownDashboardEntries := A ++ q :: p :: B,
                hiddenDashboardEntries := st.hiddenDashboardEntries,
                localStorage := writtenStorage st.localStorage (A ++ q :: p :: B)
                  st.hiddenDashboardEntries } := by
  unfold moveDashboardEntry
  have hlen : st.shownDashboardEntries.length = A.length + (B.length + 2) := by
    rw [h]; simp
  have hcond : ((decide ((A.length : Int) + 1 < 0)) ||
      decide ((A.length : Int) + 1 ≥ (st.shownDashboardEntries.length : Int))) = false := by
    rw [hlen]
    simp only [Bool.or_eq_false_iff, decide_eq_false_iff_not]
    constructor <;> omega
  simp only [hcond, Bool.false_eq_true, if_false]
  rw [elemAt_map_some_join, h, elemAt_at_length]
  have e1 : splice ((A ++ p :: q :: B).map some) (A.length : Int) 1 [] =
      (A ++ q :: B).map some := by
    have := splice_map some (A ++ p :: q :: B) (A.length : Int) 1 []
    rw [List.map_nil] at this
    rw [this, splice_at_length]
    simp
  have e2 : splice ((A ++ q :: B).map some) ((A.length : Int) + 1) 0 [some p] =
      (A ++ q :: p :: B).map some := by
    have := splice_map some (A ++ q :: B) ((A.length : Int) + 1) 0 [p]
    rw [List.map_cons, List.map_nil] at this
    rw [this]
    have e3 : A ++ q :: B = (A ++ [q]) ++ B := by simp
    have e4 : (A.length : Int) + 1 = ((A ++ [q]).length : Int) := by simp
    rw [e3, e4, splice_at_length]
    simp
  rw [e1, e2, changeDashboardEntries_defined]
  rfl

theorem moveDashboardEntry_up (st : Home) (A B : List Card) (p q : Card)
    (h : st.shownDashboardEntries = A ++ q :: p :: B) :
    moveDashboardEntry ((A.length : Int) + 1) (-1) st =
      .normal { shownDashboardEntries := A ++ p :: q :: B,
                hiddenDashboardEntries := st.hiddenDashboardEntries,
                localStorage := writtenStorage st.localStorage (A ++ p :: q :: B)
                  st.hiddenDashboardEntries } := by
  unfold moveDashboardEntry
  have hlen : st.shownDashboardEntries.length = A.length + (B.length + 2) := by
    rw [h]; simp
  have hnew : (A.length : Int) + 1 + -1 = (A.length : Int) := by omega
  have hcond : ((decide ((A.length : Int) + 1 + -1 < 0)) ||
      decide ((A.length : Int) + 1 + -1 ≥ (st.shownDashboardEntries.length : Int))) = false := by
    rw [hlen]
    simp only [Bool.or_eq_false_iff, decide_eq_false_iff_not]
    constructor <;> omega
  simp only [hcond, Bool.false_eq_true, if_false]
  rw [elemAt_map_some_join, h, hnew]
  have e0 : elemAt (A ++ q :: p :: B) ((A.length : Int) + 1) = some p := by
    have e3 : A ++ q :: p :: B = (A ++ [q]) ++ p :: B := by simp
    have e4 : (A.length : Int) + 1 = ((A ++ [q]).length : Int) := by simp
    rw [e3, e4, elemAt_at_length]
  have e1 : splice ((A ++ q :: p :: B).map some) ((A.length : Int) + 1) 1 [] =
      (A ++ q :: B).map some := by
    have := splice_map some (A ++ q :: p :: B) ((A.length : Int) + 1) 1 []
    rw [List.map_nil] at this
    rw [this]
    have e3 : A ++ q :: p :: B = (A ++ [q]) ++ p :: B := by simp
    have e4 : (A.length : Int) + 1 = ((A ++ [q]).length : Int) := by simp
    rw [e3, e4, splice_at_length]
    simp
  have e2 : splice ((A ++ q :: B).map some) (A.length : Int) 0 [some p] =
      (A ++ p :: q :: B).map some := by
    have := splice_map some (A ++ q :: B) (A.length : Int) 0 [p]
    rw [List.map_cons, List.map_nil] at this
    rw [this, splice_at_length]
    simp
  rw [e0, e1, e2, changeDashboardEntries_defined]
  rfl

theorem hideDashboardEntry_found (st : Home) (key : String) (A B : List Card) (x : Card)
    (h : st.shownDashboardEntries = A ++ x :: B)
    (hA : ∀ a ∈ A, (a.key == key) = false) (hx : (x.key == key) = true) :
    hideDashboardEntry key st =
      .normal { shownDashboardEntries := A ++ B,
                hiddenDashboardEntries := st.hiddenDashboardEntries ++ [x],
                localStorage := writtenStorage st.localStorage (A ++ B)
                  (st.hiddenDashboardEntries ++ [x]) } := by
  unfold hideDashboardEntry
  have hidx : findIndex (fun x => x.key == key) st.shownDashboardEntries = (A.length : Int) := by
    rw [h]; exact findIndex_append_cons _ A B x hA hx
  have hge : (A.length : Int) ≥ 0 := by omega
  simp only [hidx, hge, if_true]
  rw [elemAt_map_some_join, h, elemAt_at_length]
  have e1 : splice ((A ++ x :: B).map some) (A.length : Int) 1 [] = (A ++ B).map some := by
    have := splice_map some (A ++ x :: B) (A.length : Int) 1 []
    rw [List.map_nil] at this
    rw [this, splice_at_length]
    simp
  have e2 : st.hiddenDashboardEntries.map some ++ [(some x : Option Card)] =
      (st.hiddenDashboardEntries ++ [x]).map some := by simp
  rw [e1, e2, changeDashboardEntries_defined]
  rfl

theorem hideDashboardEntry_missing (st : Home) (key : String)
    (h : findIndex (fun x => x.key == key) st.shownDashboardEntries < 0) :
    hideDashboardEntry key st =
      .normal { shownDashboardEntries := st.shownDashboardEntries,
                hiddenDashboardEntries := st.hiddenDashboardEntries,
                localStorage := writtenStorage st.localStorage st.shownDashboardEntries
                  st.hiddenDashboardEntries } := by
  unfold hideDashboardEntry
  have hge : ¬ (findIndex (fun x => x.key == key) st.shownDashboardEntries ≥ 0) := by omega
  simp only [hge, if_false]
  rw [changeDashboardEntries_defined]
  rfl

theorem bringBackDashboardEntry_valid (st : Home) (A B : List Card) (x : Card)
    (h : st.hiddenDashboardEntries = A ++ x :: B) :
    bringBackDashboardEntry (A.length : Int) st =
      .normal { shownDashboardEntries := st.shownDashboardEntries ++ [x],
                hiddenDashboardEntries := A ++ B,
                localStorage := writtenStorage st.localStorage (st.shownDashboardEntries ++ [x])
                  (A ++ B) } := by
  unfold bringBackDashboardEntry
  dsimp only
  rw [elemAt_map_some_join, h, elemAt_at_length]
  have e1 : splice ((A ++ x :: B).map some) (A.length : Int) 1 [] = (A ++ B).map some := by
    have := splice_map some (A ++ x :: B) (A.length : Int) 1 []
    rw [List.map_nil] at this
    rw [this, splice_at_length]
    simp
  have e2 : st.shownDashboardEntries.map some ++ [(some x : Option Card)] =
      (st.shownDashboardEntries ++ [x]).map some := by simp
  rw [e1, e2, changeDashboardEntries_defined]
  rfl

theorem bringBackDashboardEntry_out_of_range (st : Home) (index : Int)
    (h : index < 0 ∨ (st.hiddenDashboardEntries.length : Int) ≤ index) :
    bringBackDashboardEntry index st = .thrown .TypeError st := by
  unfold bringBackDashboardEntry
  dsimp only
  rw [elemAt_map_some_join, elemAt_out_of_range _ _ h]
  unfold changeDashboardEntries
  rw [keysOfSlots_append_none]

theorem split_at_index {α : Type} (l : List α) (i : Nat) (h : i < l.length) :
    ∃ A x B, l = A ++ x :: B ∧ A.length = i := by
  refine ⟨l.take i, l[i], l.drop (i + 1), ?_, ?_⟩
  · rw [List.getElem_cons_drop l i h, List.take_append_drop]
  · simp; omega


theorem getElem?_swap_adjacent {α : Type} (A B : List α) (p q : α) :
    (A ++ q :: p :: B).length = (A ++ p :: q :: B).length ∧
      (A ++ q :: p :: B)[A.length]? = (A ++ p :: q :: B)[A.length + 1]? ∧
      (A ++ q :: p :: B)[A.length + 1]? = (A ++ p :: q :: B)[A.length]? ∧
      ∀ j : Nat, j ≠ A.length → j ≠ A.length + 1 →
        (A ++ q :: p :: B)[j]? = (A ++ p :: q :: B)[j]? := by
  refine ⟨by simp, ?_, ?_, ?_⟩
  · rw [List.getElem?_append_right (Nat.le_refl _),
      List.getElem?_append_right (Nat.le_succ _)]
    simp
  · rw [List.getElem?_append_right (Nat.le_refl _),
      List.getElem?_append_right (Nat.le_succ _)]
    simp
  · intro j h1 h2
    by_cases hj : j < A.length
    · rw [List.getElem?_append_left hj, List.getElem?_append_left hj]
    · have hge : A.length ≤ j := by omega
      rw [List.getElem?_append_right hge, List.getElem?_append_right hge]
      obtain ⟨m, hm⟩ : ∃ m, j - A.length = m + 2 := ⟨j - A.length - 2, by omega⟩
      rw [hm]
      simp

theorem moveDashboardEntry_out_of_range (st : Home) (oldIndex diff : Int)
    (hout : oldIndex + diff < 0 ∨ (st.shownDashboardEntries.length : Int) ≤ oldIndex + diff) :
    moveDashboardEntry oldIndex diff st = .normal st := by
  unfold moveDashboardEntry
  have hcond : ((decide (oldIndex + diff < 0)) ||
      decide (oldIndex + diff ≥ (st.shownDashboardEntries.length : Int))) = true := by
    rw [Bool.or_eq_true, decide_eq_true_eq, decide_eq_true_eq]
    exact hout
  simp only [hcond, if_true]

/-- A move that stays in range exchanges two neighbours: shown splits as
`A ++ p :: q :: B` with `A` as long as the smaller of the two positions, and
the result is `A ++ q :: p :: B`. -/
theorem moveDashboardEntry_in_range (st : Home) (index : Nat) (direction : Int)
    (hidx : index < st.shownDashboardEntries.length)
    (hdir : direction = -1 ∨ direction = 1)
    (h0 : 0 ≤ (index : Int) + direction)
    (h1 : (index : Int) + direction < (st.shownDashboardEntries.length : Int)) :
    ∃ (A B : List Card) (p q : Card),
      st.shownDashboardEntries = A ++ p :: q :: B ∧
      ((index = A.length ∧ ((index : Int) + direction).toNat = A.length + 1) ∨
        (index = A.length + 1 ∧ ((index : Int) + direction).toNat = A.length)) ∧
      moveDashboardEntry (index : Int) direction st =
        .normal { shownDashboardEntries := A ++ q :: p :: B,
                  hiddenDashboardEntries := st.hiddenDashboardEntries,
                  localStorage := writtenStorage st.localStorage (A ++ q :: p :: B)
                    st.hiddenDashboardEntries } := by
  rcases hdir with hd | hd
  · subst hd
    have hpos : 1 ≤ index := by omega
    obtain ⟨A, q, R, hl, hA⟩ := split_at_index st.shownDashboardEntries (index - 1) (by omega)
    have hR : R ≠ [] := by
      intro e
      rw [e] at hl
      rw [hl] at hidx
      simp at hidx
      omega
    obtain ⟨p, B, hRB⟩ := List.exists_cons_of_ne_nil hR
    rw [hRB] at hl
    have hi : (index : Int) = (A.length : Int) + 1 := by omega
    have hmove := moveDashboardEntry_up st A B p q hl
    rw [← hi] at hmove
    exact ⟨A, B, q, p, hl, Or.inr ⟨by omega, by omega⟩, hmove⟩
  · subst hd
    obtain ⟨A, p, R, hl, hA⟩ := split_at_index st.shownDashboardEntries index hidx
    have hR : R ≠ [] := by
      intro e
      rw [e] at hl
      rw [hl] at h1
      simp at h1
      omega
    obtain ⟨q, B, hRB⟩ := List.exists_cons_of_ne_nil hR
    rw [hRB] at hl
    have hi : (index : Int) = (A.length : Int) := by omega
    have hmove := moveDashboardEntry_down st A B p q hl
    rw [← hi] at hmove
    exact ⟨A, B, p, q, hl, Or.inl ⟨by omega, by omega⟩, hmove⟩

/-! ## Reordering -/

/-- C7: for a valid position `index` of shown and `direction` in `{-1, +1}`,
`moveDashboardEntry` returns normally; when `index + direction` falls outside
`[0, len(shown))` state and storage are left as they were, and otherwise the
new shown list has the entries at `index` and `index + direction` exchanged,
every other position and the hidden list unchanged, and both key sequences are
written through. -/
theorem moveDashboardEntry_swaps_or_noop (st : Home) (index : Nat) (direction : Int)
    (hidx : index < st.shownDashboardEntries.length)
    (hdir : direction = -1 ∨ direction = 1) :
    (((index : Int) + direction < 0 ∨
          (st.shownDashboardEntries.length : Int) ≤ (index : Int) + direction) →
        moveDashboardEntry (index : Int) direction st = .normal st) ∧
      ((0 ≤ (index : Int) + direction ∧
          (index : Int) + direction < (st.shownDashboardEntries.length : Int)) →
        ∃ st2, moveDashboardEntry (index : Int) direction st = .normal st2 ∧
          st2.hiddenDashboardEntries = st.hiddenDashboardEntries ∧
          st2.shownDashboardEntries.length = st.shownDashboardEntries.length ∧
          st2.shownDashboardEntries[index]? =
            st.shownDashboardEntries[((index : Int) + direction).toNat]? ∧
          st2.shownDashboardEntries[((index : Int) + direction).toNat]? =
            st.shownDashboardEntries[index]? ∧
          (∀ j : Nat, j ≠ index → j ≠ ((index : Int) + direction).toNat →
            st2.shownDashboardEntries[j]? = st.shownDashboardEntries[j]?) ∧
          st2.localStorage = writtenStorage st.localStorage st2.shownDashboardEntries
            st2.hiddenDashboardEntries) := by
  constructor
  · exact moveDashboardEntry_out_of_range st index direction
  · rintro ⟨h0, h1⟩
    obtain ⟨A, B, p, q, hl, hpos, hmove⟩ :=
      moveDashboardEntry_in_range st index direction hidx hdir h0 h1
    have hs := getElem?_swap_adjacent A B p q
    refine ⟨_, hmove, rfl, ?_, ?_, ?_, ?_, rfl⟩
    · rw [hl]; exact hs.1
    · rcases hpos with ⟨e1, e2⟩ | ⟨e1, e2⟩
      · rw [e2, hl, e1]; exact hs.2.1
      · rw [e2, hl, e1]; exact hs.2.2.1
    · rcases hpos with ⟨e1, e2⟩ | ⟨e1, e2⟩
      · rw [e2, hl, e1]; exact hs.2.2.1
      · rw [e2, hl, e1]; exact hs.2.1
    · intro j hj1 hj2
      rw [hl]
      rcases hpos with ⟨e1, e2⟩ | ⟨e1, e2⟩
      · exact hs.2.2.2 j (by omega) (by omega)
      · exact hs.2.2.2 j (by omega) (by omega)

/-- Instance of C7 on the example of the specification: `moveEntry(1, -1)` on
shown `["a","b","c"]` yields `["b","a","c"]`, and `moveEntry(0, -1)` changes
nothing. -/
theorem moveDashboardEntry_swaps_or_noop_witness :
    (1 < (Home.initial catalogABC ⟨none, none, 0⟩).shownDashboardEntries.length ∧
      ∃ st2, moveDashboardEntry ((1 : Nat) : Int) (-1) (Home.initial catalogABC ⟨none, none, 0⟩) =
          .normal st2 ∧
        keysOf st2.shownDashboardEntries = ["b", "a", "c"]) ∧
      moveDashboardEntry ((0 : Nat) : Int) (-1) (Home.initial catalogABC ⟨none, none, 0⟩) =
        .normal (Home.initial catalogABC ⟨none, none, 0⟩) := by
  refine ⟨⟨by decide, ?_⟩, ?_⟩
  · obtain ⟨st2, hm, _⟩ :=
      (moveDashboardEntry_swaps_or_noop (Home.initial catalogABC ⟨none, none, 0⟩) 1 (-1)
        (by decide) (Or.inl rfl)).2 ⟨by decide, by decide⟩
    refine ⟨st2, hm, ?_⟩
    have hx : moveDashboardEntry ((1 : Nat) : Int) (-1) (Home.initial catalogABC ⟨none, none, 0⟩) =
        .normal { shownDashboardEntries :=
                    [ { key := "b", label := "B" }, { key := "a", label := "A" },
                      { key := "c", label := "C" } ],
                  hiddenDashboardEntries := [],
                  localStorage := ⟨some "[\"b\",\"a\",\"c\"]", some "[]", 2⟩ } := by decide
    rw [hx] at hm
    injection hm with e
    rw [← e]
    decide
  · exact (moveDashboardEntry_swaps_or_noop (Home.initial catalogABC ⟨none, none, 0⟩) 0 (-1)
      (by decide) (Or.inl rfl)).1 (Or.inl (by decide))


theorem key_beq_false_of_not_mem (l : List Card) (k : String) (h : k ∉ keysOf l) :
    ∀ a ∈ l, (a.key == k) = false := by
  intro a ha
  have : a.key ≠ k := by
    intro e
    apply h
    rw [← e]
    exact List.mem_map_of_mem _ ha
  simpa using this

theorem filter_key_ne (A B : List Card) (x : Card) (k : String) (hx : x.key = k)
    (hA : k ∉ keysOf A) (hB : k ∉ keysOf B) :
    (A ++ x :: B).filter (fun y => y.key != k) = A ++ B := by
  have hfa : ∀ l : List Card, k ∉ keysOf l → l.filter (fun y => y.key != k) = l := by
    intro l hl
    rw [List.filter_eq_self]
    intro a ha
    have := key_beq_false_of_not_mem l k hl a ha
    simp [bne, this]
  rw [List.filter_append, List.filter_cons_of_neg (by simp [hx]), hfa A hA, hfa B hB]

/-! ## Hiding and restoring -/

/-- C8: in a layout whose keys are unique, hiding a key `k` of shown removes
its card from shown, the other entries keeping their order, and appends it to
hidden; restoring the entry found at the position of `k` in hidden then yields
the original shown without `k` followed by the card of `k`, and the original
hidden. -/
theorem hide_then_restore (st : Home) (k : String)
    (huniq : (keysOf (st.shownDashboardEntries ++ st.hiddenDashboardEntries)).Nodup)
    (hk : k ∈ keysOf st.shownDashboardEntries) :
    ∃ (c : Card) (st1 st2 : Home),
      c ∈ st.shownDashboardEntries ∧ c.key = k ∧
      hideDashboardEntry k st = .normal st1 ∧
      st1.shownDashboardEntries = st.shownDashboardEntries.filter (fun x => x.key != k) ∧
      st1.hiddenDashboardEntries = st.hiddenDashboardEntries ++ [c] ∧
      bringBackDashboardEntry (findIndex (fun x => x.key == k) st1.hiddenDashboardEntries) st1 =
        .normal st2 ∧
      st2.shownDashboardEntries =
        st.shownDashboardEntries.filter (fun x => x.key != k) ++ [c] ∧
      st2.hiddenDashboardEntries = st.hiddenDashboardEntries := by
  have hfound : 0 ≤ findIndex (fun x => x.key == k) st.shownDashboardEntries := by
    by_contra hneg
    have hall := (findIndex_neg_iff (fun x : Card => x.key == k) st.shownDashboardEntries).1
      (by omega)
    obtain ⟨a, ha, hak⟩ := List.mem_map.1 hk
    have := hall a ha
    simp [hak] at this
  obtain ⟨A, x, B, hl, _, hx, hA⟩ := findIndex_split _ _ hfound
  have hxk : x.key = k := by simpa using hx
  have hnd : (keysOf A ++ k :: (keysOf B ++ keysOf st.hiddenDashboardEntries)).Nodup := by
    have := huniq
    rw [hl] at this
    simpa [keysOf, hxk] using this
  have hnd2 := List.nodup_append.1 hnd
  have hkA : k ∉ keysOf A := by
    intro h
    exact hnd2.2.2 h (List.mem_cons_self _ _) 
  have hkBH : k ∉ keysOf B ++ keysOf st.hiddenDashboardEntries :=
    (List.nodup_cons.1 hnd2.2.1).1
  have hkB : k ∉ keysOf B := fun h => hkBH (List.mem_append_left _ h)
  have hkH : k ∉ keysOf st.hiddenDashboardEntries := fun h => hkBH (List.mem_append_right _ h)
  have hfilter := filter_key_ne A B x k hxk hkA hkB
  have hhide := hideDashboardEntry_found st k A B x hl hA hx
  have hidx : findIndex (fun x => x.key == k) (st.hiddenDashboardEntries ++ [x]) =
      (st.hiddenDashboardEntries.length : Int) :=
    findIndex_append_cons _ _ [] x (key_beq_false_of_not_mem _ k hkH) hx
  have hback := bringBackDashboardEntry_valid
    { shownDashboardEntries := A ++ B,
      hiddenDashboardEntries := st.hiddenDashboardEntries ++ [x],
      localStorage := writtenStorage st.localStorage (A ++ B)
        (st.hiddenDashboardEntries ++ [x]) }
    st.hiddenDashboardEntries [] x rfl
  rw [← hidx] at hback
  refine ⟨x, _, _, ?_, hxk, hhide, ?_, rfl, hback, ?_, ?_⟩
  · rw [hl]; simp
  · rw [hl, hfilter]
  · rw [hl, hfilter]
  · simp

/-- Instance of C8 on the example of the specification: on shown `["a","b"]`,
hiding `"a"` and restoring it gives shown `["b","a"]`. -/
theorem hide_then_restore_witness :
    (keysOf ([⟨"a", "A", false⟩, ⟨"b", "B", false⟩] ++ ([] : List Card))).Nodup ∧
      "a" ∈ keysOf [⟨"a", "A", false⟩, ⟨"b", "B", false⟩] ∧
      ∃ (c : Card) (st1 st2 : Home),
        hideDashboardEntry "a" ⟨[⟨"a", "A", false⟩, ⟨"b", "B", false⟩], [], ⟨none, none, 0⟩⟩ =
          .normal st1 ∧
        st1.hiddenDashboardEntries = [c] ∧
        bringBackDashboardEntry
          (findIndex (fun x => x.key == "a") st1.hiddenDashboardEntries) st1 = .normal st2 ∧
        st2.shownDashboardEntries = [⟨"b", "B", false⟩, c] ∧
        st2.hiddenDashboardEntries = [] := by
  refine ⟨by decide, by decide, ?_⟩
  obtain ⟨c, st1, st2, _, _, h1, _, h2, h3, h4, h5⟩ :=
    hide_then_restore ⟨[⟨"a", "A", false⟩, ⟨"b", "B", false⟩], [], ⟨none, none, 0⟩⟩ "a"
      (by decide) (by decide)
  exact ⟨c, st1, st2, h1, h2, h3, h4, h5⟩

/-- C9, as stated, fails: restoring at an out-of-range index throws. In the
initial state, where hidden is empty, `bringBackDashboardEntry(0)` raises a
`TypeError` instead of returning. -/
theorem bringBackDashboardEntry_throws_at_zero :
    bringBackDashboardEntry 0 (Home.initial ALL_DASHBOARD_CARDS ⟨none, none, 0⟩) =
        .thrown .TypeError (Home.initial ALL_DASHBOARD_CARDS ⟨none, none, 0⟩) ∧
      bringBackDashboardEntry 0 (Home.initial ALL_DASHBOARD_CARDS ⟨none, none, 0⟩) ≠
        .normal (Home.initial ALL_DASHBOARD_CARDS ⟨none, none, 0⟩) := by
  decide

/-- C9, amended: for every index outside `[0, len(hidden))`, negative or too
large, `bringBackDashboardEntry` raises a `TypeError` before anything is
written or set: shown, hidden and the persisted store are left unchanged. -/
theorem bringBackDashboardEntry_invalid_index (st : Home) (index : Int)
    (h : index < 0 ∨ (st.hiddenDashboardEntries.length : Int) ≤ index) :
    bringBackDashboardEntry index st = .thrown .TypeError st :=
  bringBackDashboardEntry_out_of_range st index h

/-- Instance of the amended C9 at index `-1` with one hidden card. -/
theorem bringBackDashboardEntry_invalid_index_witness :
    ((-1 : Int) < 0 ∨ (([⟨"b", "B", false⟩] : List Card).length : Int) ≤ -1) ∧
      bringBackDashboardEntry (-1) ⟨[⟨"a", "A", false⟩], [⟨"b", "B", false⟩], ⟨none, none, 0⟩⟩ =
        .thrown .TypeError ⟨[⟨"a", "A", false⟩], [⟨"b", "B", false⟩], ⟨none, none, 0⟩⟩ :=
  ⟨Or.inl (by decide),
   bringBackDashboardEntry_invalid_index
     ⟨[⟨"a", "A", false⟩], [⟨"b", "B", false⟩], ⟨none, none, 0⟩⟩ (-1) (Or.inl (by decide))⟩


theorem keysOf_append (a b : List Card) : keysOf (a ++ b) = keysOf a ++ keysOf b := by
  simp [keysOf]

/-- The layout invariant only depends on the keys held, up to reordering. -/
theorem LayoutInvariant_of_perm (cards : List Card) (st st2 : Home)
    (hp : List.Perm (st2.shownDashboardEntries ++ st2.hiddenDashboardEntries)
      (st.shownDashboardEntries ++ st.hiddenDashboardEntries))
    (hinv : LayoutInvariant cards st) : LayoutInvariant cards st2 := by
  obtain ⟨_, hnd, hsub, hsup⟩ := hinv
  have hpk : List.Perm (keysOf (st2.shownDashboardEntries ++ st2.hiddenDashboardEntries))
      (keysOf (st.shownDashboardEntries ++ st.hiddenDashboardEntries)) := hp.map _
  have hnd2 := hpk.nodup_iff.2 hnd
  refine ⟨?_, hnd2, ?_, ?_⟩
  · intro k hk1 hk2
    rw [keysOf_append] at hnd2
    exact (List.nodup_append.1 hnd2).2.2 hk1 hk2
  · intro k hk
    exact hsub k (hpk.mem_iff.1 hk)
  · intro k hk
    exact hpk.mem_iff.2 (hsup k hk)

/-! ## Invariant preservation -/

/-- C4: for a catalog with unique keys, a state in which shown and hidden are
disjoint by key, repeat no key and hold exactly the keys of the catalog is
taken to such a state, without a throw, by `moveDashboardEntry(i, ±1)` at a
valid position `i` of shown, by `hideDashboardEntry(k)` for any key `k`, by
`bringBackDashboardEntry(i)` at a valid position `i` of hidden, and by the
reset to the catalog. -/
theorem operations_preserve_invariant (cards : List Card) (st : Home)
    (hcat : (keysOf cards).Nodup) (hinv : LayoutInvariant cards st) :
    (∀ (i : Nat) (d : Int), i < st.shownDashboardEntries.length → (d = -1 ∨ d = 1) →
        ∃ st2, moveDashboardEntry (i : Int) d st = .normal st2 ∧ LayoutInvariant cards st2) ∧
      (∀ k : String, ∃ st2, hideDashboardEntry k st = .normal st2 ∧ LayoutInvariant cards st2) ∧
      (∀ i : Nat, i < st.hiddenDashboardEntries.length →
        ∃ st2, bringBackDashboardEntry (i : Int) st = .normal st2 ∧
          LayoutInvariant cards st2) ∧
      (∃ st2, resetToDefault cards st = .normal st2 ∧ LayoutInvariant cards st2) := by
  refine ⟨?_, ?_, ?_, ?_⟩
  · intro i d hi hd
    by_cases hr : 0 ≤ (i : Int) + d ∧ (i : Int) + d < (st.shownDashboardEntries.length : Int)
    · obtain ⟨A, B, p, q, hl, _, hmove⟩ := moveDashboardEntry_in_range st i d hi hd hr.1 hr.2
      refine ⟨_, hmove, LayoutInvariant_of_perm cards st _ ?_ hinv⟩
      rw [hl]
      exact List.perm_iff_count.2 (fun a => by
        simp only [List.count_append, List.count_cons]
        omega)
    · exact ⟨st, moveDashboardEntry_out_of_range st i d (by omega), hinv⟩
  · intro k
    by_cases hf : 0 ≤ findIndex (fun x => x.key == k) st.shownDashboardEntries
    · obtain ⟨A, x, B, hl, _, hx, hA⟩ := findIndex_split _ _ hf
      refine ⟨_, hideDashboardEntry_found st k A B x hl hA hx,
        LayoutInvariant_of_perm cards st _ ?_ hinv⟩
      rw [hl]
      exact List.perm_iff_count.2 (fun a => by
        simp only [List.count_append, List.count_cons, List.count_nil]
        omega)
    · exact ⟨_, hideDashboardEntry_missing st k (by omega),
        LayoutInvariant_of_perm cards st _ (List.Perm.refl _) hinv⟩
  · intro i hi
    obtain ⟨A, x, B, hl, hA⟩ := split_at_index st.hiddenDashboardEntries i hi
    have hback := bringBackDashboardEntry_valid st A B x hl
    rw [hA] at hback
    refine ⟨_, hback, LayoutInvariant_of_perm cards st _ ?_ hinv⟩
    rw [hl]
    exact List.perm_iff_count.2 (fun a => by
      simp only [List.count_append, List.count_cons, List.count_nil]
      omega)
  · have hreset : resetToDefault cards st =
        .normal { shownDashboardEntries := cards, hiddenDashboardEntries := [],
                  localStorage := writtenStorage st.localStorage cards [] } := by
      unfold resetToDefault
      exact changeDashboardEntries_defined cards [] st
    refine ⟨_, hreset, ?_, ?_, ?_, ?_⟩
    · intro k _ hk
      simp [keysOf] at hk
    · simpa using hcat
    · intro k hk
      simpa using hk
    · intro k hk
      simpa using hk

/-- Instance of C4 on the page catalog: from shown = all cards but the last
and hidden = the last card, each operation returns a state that satisfies the
invariant. -/
theorem operations_preserve_invariant_witness :
    (keysOf ALL_DASHBOARD_CARDS).Nodup ∧
      LayoutInvariant ALL_DASHBOARD_CARDS
        ⟨ALL_DASHBOARD_CARDS.take 10, ALL_DASHBOARD_CARDS.drop 10, ⟨none, none, 0⟩⟩ ∧
      (∃ st2, moveDashboardEntry ((3 : Nat) : Int) 1
          ⟨ALL_DASHBOARD_CARDS.take 10, ALL_DASHBOARD_CARDS.drop 10, ⟨none, none, 0⟩⟩ =
            .normal st2 ∧ LayoutInvariant ALL_DASHBOARD_CARDS st2) ∧
      (∃ st2, hideDashboardEntry "mensa"
          ⟨ALL_DASHBOARD_CARDS.take 10, ALL_DASHBOARD_CARDS.drop 10, ⟨none, none, 0⟩⟩ =
            .normal st2 ∧ LayoutInvariant ALL_DASHBOARD_CARDS st2) ∧
      (∃ st2, bringBackDashboardEntry ((0 : Nat) : Int)
          ⟨ALL_DASHBOARD_CARDS.take 10, ALL_DASHBOARD_CARDS.drop 10, ⟨none, none, 0⟩⟩ =
            .normal st2 ∧ LayoutInvariant ALL_DASHBOARD_CARDS st2) ∧
      (∃ st2, resetToDefault ALL_DASHBOARD_CARDS
          ⟨ALL_DASHBOARD_CARDS.take 10, ALL_DASHBOARD_CARDS.drop 10, ⟨none, none, 0⟩⟩ =
            .normal st2 ∧ LayoutInvariant ALL_DASHBOARD_CARDS st2) :=
  ⟨by decide, by decide,
   (operations_preserve_invariant ALL_DASHBOARD_CARDS
      ⟨ALL_DASHBOARD_CARDS.take 10, ALL_DASHBOARD_CARDS.drop 10, ⟨none, none, 0⟩⟩
      (by decide) (by decide)).1 3 1 (by decide) (Or.inr rfl),
   (operations_preserve_invariant ALL_DASHBOARD_CARDS
      ⟨ALL_DASHBOARD_CARDS.take 10, ALL_DASHBOARD_CARDS.drop 10, ⟨none, none, 0⟩⟩
      (by decide) (by decide)).2.1 "mensa",
   (operations_preserve_invariant ALL_DASHBOARD_CARDS
      ⟨ALL_DASHBOARD_CARDS.take 10, ALL_DASHBOARD_CARDS.drop 10, ⟨none, none, 0⟩⟩
      (by decide) (by decide)).2.2.1 0 (by decide),
   (operations_preserve_invariant ALL_DASHBOARD_CARDS
      ⟨ALL_DASHBOARD_CARDS.take 10, ALL_DASHBOARD_CARDS.drop 10, ⟨none, none, 0⟩⟩
      (by decide) (by decide)).2.2.2⟩


/-! ## Lemmas on `includes` and `JSON_stringify` -/

theorem includesChars_iff (s t : List Char) : includesChars s t = true ↔ t <:+: s := by
  induction s with
  | nil => simp [includesChars, List.infix_nil]
  | cons c cs ih =>
    rw [includesChars, Bool.or_eq_true, ih, List.infix_cons_iff, List.isPrefixOf_iff_prefix]

theorem hexDigit_mem (n : Nat) : hexDigit n ∈ "0123456789abcdef".data := by
  unfold hexDigit
  by_cases h : n < 16
  · interval_cases n <;> decide
  · have : "0123456789abcdef".data.length ≤ n := by
      have : "0123456789abcdef".data.length = 16 := by decide
      omega
    rw [List.getD_eq_default _ _ this]
    decide

theorem hexDigit_ne_h (n : Nat) : hexDigit n ≠ 'h' := by
  intro e
  have := hexDigit_mem n
  rw [e] at this
  revert this
  decide

/-- The only way `h` shows up in the escaping of a character is as itself. -/
theorem quoteChar_h (c : Char) (h : 'h' ∈ quoteChar c) : quoteChar c = [c] := by
  unfold quoteChar at h ⊢
  have hh := hexDigit_ne_h
  split_ifs at h ⊢ <;> first | rfl | exact absurd h (by decide) | skip
  exfalso
  have h1 := hh (c.toNat / 16)
  have h2 := hh (c.toNat % 16)
  simp only [List.mem_cons, List.mem_singleton, List.not_mem_nil, or_false] at h
  rcases h with h | h | h | h | h | h
  · exact absurd h (by decide)
  · exact absurd h (by decide)
  · exact absurd h (by decide)
  · exact absurd h (by decide)
  · exact h1 h.symm
  · exact h2 h.symm

/-- The escaping of a character starts with the character itself only when the
character is left as it is; otherwise it starts with a backslash. -/
theorem quoteChar_cases (c : Char) :
    quoteChar c = [c] ∨ ∃ r, quoteChar c = Char.ofNat 92 :: r := by
  unfold quoteChar
  split_ifs
  case neg => exact Or.inl rfl
  all_goals exact Or.inr ⟨_, rfl⟩

/-- A text free of backslashes and double quotes that starts the escaped form of
`cs` followed by a closing quote already starts `cs`. -/
theorem prefix_of_prefix_quoteChars (T : List Char)
    (hT : ∀ c ∈ T, c ≠ Char.ofNat 92 ∧ c ≠ Char.ofNat 34) :
    ∀ (cs rest : List Char), T <+: quoteChars cs ++ Char.ofNat 34 :: rest → T <+: cs := by
  induction T with
  | nil => intro cs rest _; exact List.nil_prefix
  | cons t T ih =>
    intro cs rest h
    have ht := hT t (List.mem_cons_self _ _)
    have hT2 : ∀ c ∈ T, c ≠ Char.ofNat 92 ∧ c ≠ Char.ofNat 34 :=
      fun c hc => hT c (List.mem_cons_of_mem _ hc)
    cases cs with
    | nil =>
      change t :: T <+: Char.ofNat 34 :: rest at h
      exact absurd (List.cons_prefix_cons.1 h).1 ht.2
    | cons c cs =>
      rw [quoteChars] at h
      rcases quoteChar_cases c with hc | ⟨r, hc⟩
      · rw [hc] at h
        have h2 := List.cons_prefix_cons.1 h
        rw [h2.1]
        exact List.cons_prefix_cons.2 ⟨rfl, ih hT2 cs rest h2.2⟩
      · rw [hc] at h
        exact absurd (List.cons_prefix_cons.1 h).1 ht.1

/-- The text `hidden-below` occurs in the escaped form of `cs` followed by a
closing quote only if it occurs in `cs` or after the quote. -/
theorem infix_quoteChars (cs rest : List Char)
    (h : "hidden-below".data <:+: quoteChars cs ++ Char.ofNat 34 :: rest) :
    "hidden-below".data <:+: cs ∨ "hidden-below".data <:+: rest := by
  have hplain : ∀ c ∈ "hidden-below".data, c ≠ Char.ofNat 92 ∧ c ≠ Char.ofNat 34 := by decide
  have hS : "hidden-below".data = 'h' :: "idden-below".data := by decide
  induction cs with
  | nil =>
    change "hidden-below".data <:+: Char.ofNat 34 :: rest at h
    rcases List.infix_cons_iff.1 h with h1 | h1
    · rw [hS] at h1
      exact absurd (List.cons_prefix_cons.1 h1).1 (by decide)
    · exact Or.inr h1
  | cons c cs ih =>
    -- either the text starts inside the escaping of `c`, or it lies further on
    have hsplit : ∀ (E X : List Char), "hidden-below".data <:+: E ++ X →
        'h' ∈ E ∨ "hidden-below".data <:+: X := by
      intro E
      induction E with
      | nil => intro X hx; exact Or.inr hx
      | cons e E ihE =>
        intro X hx
        rcases List.infix_cons_iff.1 hx with h1 | h1
        · rw [hS] at h1
          have := (List.cons_prefix_cons.1 h1).1
          exact Or.inl (by rw [this]; exact List.mem_cons_self _ _)
        · rcases ihE X h1 with h2 | h2
          · exact Or.inl (List.mem_cons_of_mem _ h2)
          · exact Or.inr h2
    rw [quoteChars, List.append_assoc] at h
    rcases hsplit _ _ h with h1 | h1
    · have hc := quoteChar_h c h1
      rw [hc] at h
      rcases List.infix_cons_iff.1 h with h2 | h2
      · have h3 : "hidden-below".data <+: quoteChars (c :: cs) ++ Char.ofNat 34 :: rest := by
          rw [quoteChars, hc]; exact h2
        exact Or.inl (prefix_of_prefix_quoteChars _ hplain _ _ h3).isInfix
      · rcases ih h2 with h4 | h4
        · exact Or.inl (List.infix_cons h4)
        · exact Or.inr h4
    · rcases ih h1 with h4 | h4
      · exact Or.inl (List.infix_cons h4)
      · exact Or.inr h4

/-- The text `hidden-below` occurs in the joined quoted elements followed by
`rest` only if it occurs in one of the elements or in `rest`. -/
theorem infix_joinQuoted (ks : List String) :
    ∀ rest : List Char, "hidden-below".data <:+: joinQuoted ks ++ rest →
      (∃ k ∈ ks, "hidden-below".data <:+: k.data) ∨ "hidden-below".data <:+: rest := by
  have hS : "hidden-below".data = 'h' :: "idden-below".data := by decide
  have hhead : ∀ (e : Char) (X : List Char), e ≠ 'h' → "hidden-below".data <:+: e :: X →
      "hidden-below".data <:+: X := by
    intro e X he hx
    rcases List.infix_cons_iff.1 hx with h1 | h1
    · rw [hS] at h1
      exact absurd (List.cons_prefix_cons.1 h1).1.symm he
    · exact h1
  induction ks with
  | nil => intro rest h; exact Or.inr h
  | cons k ks ih =>
    intro rest h
    cases ks with
    | nil =>
      have e1 : joinQuoted [k] ++ rest =
          Char.ofNat 34 :: (quoteChars k.data ++ Char.ofNat 34 :: rest) := by
        simp [joinQuoted, QuoteJSONString]
      rw [e1] at h
      have h1 := hhead (Char.ofNat 34) _ (by decide) h
      rcases infix_quoteChars _ _ h1 with h2 | h2
      · exact Or.inl ⟨k, List.mem_cons_self _ _, h2⟩
      · exact Or.inr h2
    | cons k2 ks =>
      have e1 : joinQuoted (k :: k2 :: ks) ++ rest =
          Char.ofNat 34 :: (quoteChars k.data ++
            Char.ofNat 34 :: (',' :: (joinQuoted (k2 :: ks) ++ rest))) := by
        simp [joinQuoted, QuoteJSONString]
      rw [e1] at h
      have h1 := hhead (Char.ofNat 34) _ (by decide) h
      rcases infix_quoteChars _ _ h1 with h2 | h2
      · exact Or.inl ⟨k, List.mem_cons_self _ _, h2⟩
      · have h3 := hhead ',' _ (by decide) h2
        rcases ih rest h3 with ⟨k3, hk3, h4⟩ | h4
        · exact Or.inl ⟨k3, List.mem_cons_of_mem _ hk3, h4⟩
        · exact Or.inr h4

/-- If no key contains the text `hidden-below`, neither does the serialised
sequence. -/
theorem includes_stringify_false (ks : List String)
    (h : ∀ k ∈ ks, includes k "hidden-below" = false) :
    includes (JSON_stringify ks) "hidden-below" = false := by
  rw [← Bool.not_eq_true]
  intro hin
  unfold includes JSON_stringify at hin
  rw [includesChars_iff] at hin
  have hS : "hidden-below".data = 'h' :: "idden-below".data := by decide
  have h1 : "hidden-below".data <:+: joinQuoted ks ++ [']'] := by
    rcases List.infix_cons_iff.1 hin with h2 | h2
    · rw [hS] at h2
      exact absurd (List.cons_prefix_cons.1 h2).1 (by decide)
    · exact h2
  rcases infix_joinQuoted ks _ h1 with ⟨k, hk, h3⟩ | h3
  · have := h k hk
    unfold includes at this
    rw [← Bool.not_eq_true, includesChars_iff] at this
    exact this h3
  · have hlen := h3.length_le
    revert hlen
    decide

/-- A sequence that holds the key `hidden-below` serialises to a text that
contains it. -/
theorem includes_stringify_true (ks : List String) (h : "hidden-below" ∈ ks) :
    includes (JSON_stringify ks) "hidden-below" = true := by
  unfold includes JSON_stringify
  rw [includesChars_iff]
  have hq : "hidden-below".data <:+: QuoteJSONString "hidden-below" :=
    ⟨[Char.ofNat 34], [Char.ofNat 34], by decide⟩
  have hj : ∀ ks : List String, "hidden-below" ∈ ks →
      QuoteJSONString "hidden-below" <:+: joinQuoted ks := by
    intro ks
    induction ks with
    | nil => intro h; simp at h
    | cons k ks ih =>
      intro hmem
      cases ks with
      | nil =>
        have : k = "hidden-below" := (by simpa using hmem : "hidden-below" = k).symm
        rw [this]
        exact List.infix_refl _
      | cons k2 ks =>
        rcases List.mem_cons.1 hmem with h1 | h1
        · rw [← h1]
          exact (List.prefix_append _ _).isInfix
        · have h2 := ih h1
          rw [joinQuoted]
          exact (List.infix_cons h2).trans (List.suffix_append _ _).isInfix
  have h1 := hq.trans (hj ks h)
  exact (List.infix_cons (h1.trans (List.prefix_append _ _).isInfix))


/-! ## Lemmas on the legacy block -/

theorem slice_zero_length {α : Type} (A R : List α) :
    slice (A ++ R) 0 (A.length : Int) = A := by
  unfold slice
  have h0 : relIndex (A ++ R).length 0 = 0 := by simp [relIndex]
  rw [h0, relIndex_natCast _ _ (by simp)]
  simp

theorem sliceFrom_succ_length {α : Type} (A B : List α) (x : α) :
    sliceFrom (A ++ x :: B) ((A.length : Int) + 1) = B := by
  unfold sliceFrom slice
  have e : (A.length : Int) + 1 = ((A.length + 1 : Nat) : Int) := by push_cast; rfl
  rw [e, relIndex_natCast _ _ (by simp), relIndex_natCast _ _ (Nat.le_refl _)]
  have hd : List.drop (A.length + 1) (A ++ x :: B) = B := by
    have : A ++ x :: B = (A ++ [x]) ++ B := by simp
    rw [this]
    exact List.drop_left' (by simp)
  dsimp only
  rw [hd]
  apply List.take_of_length_le
  simp only [List.length_append, List.length_cons]
  omega

theorem indexOf_first (A B : List String) (v : String) (hA : v ∉ A) :
    indexOf (A ++ v :: B) v = (A.length : Int) := by
  unfold indexOf
  apply findIndex_append_cons
  · intro a ha
    have : a ≠ v := fun e => hA (e ▸ ha)
    simpa using this
  · simp

theorem truthy_stringify (ks : List String) : truthy (some (JSON_stringify ks)) = true := by
  unfold truthy JSON_stringify
  have : String.mk ('[' :: (joinQuoted ks ++ [']'])) ≠ "" := by
    intro e
    have := congrArg String.data e
    simp at this
  simpa using this

theorem legacyMigration_legacy (JSON_parse : String → Option (List String)) (ls : LocalStorage)
    (before after : List String) (hbefore : "hidden-below" ∉ before)
    (hparse : JSON_parse (JSON_stringify (before ++ "hidden-below" :: after)) =
      some (before ++ "hidden-below" :: after)) :
    legacyMigration JSON_parse (JSON_stringify (before ++ "hidden-below" :: after)) ls =
      .normal { personalizedDashboard := some (JSON_stringify before),
                personalizedDashboardHidden := some (JSON_stringify after),
                writes := ls.writes + 2 } := by
  unfold legacyMigration
  rw [if_pos (includes_stringify_true _ (by simp)), hparse]
  simp only [indexOf_first before after "hidden-below" hbefore, slice_zero_length,
    sliceFrom_succ_length, LocalStorage.setShown, LocalStorage.setHidden]

theorem legacyMigration_current (JSON_parse : String → Option (List String)) (ls : LocalStorage)
    (shownKeys : List String) (hno : ∀ k ∈ shownKeys, includes k "hidden-below" = false) :
    legacyMigration JSON_parse (JSON_stringify shownKeys) ls = .normal ls := by
  unfold legacyMigration
  rw [if_neg (by rw [includes_stringify_false shownKeys hno]; simp)]


/-- On a stored shown value that is truthy and free of the text `hidden-below`,
`load` writes nothing and sets the layout to the reconciliation of the two
parsed sequences. -/
theorem load_reconciles (JSON_parse : String → Option (List String)) (cards : List Card)
    (narrow : Bool) (st : Home) (raw : String) (shownKeys hiddenKeys : List String)
    (hraw : st.localStorage.personalizedDashboard = some raw) (hne : raw ≠ "")
    (hcur : includes raw "hidden-below" = false)
    (hshown : JSON_parse raw = some shownKeys)
    (hhidden : parseItem JSON_parse st.localStorage.personalizedDashboardHidden =
      some hiddenKeys) :
    load JSON_parse cards narrow st =
      .normal { shownDashboardEntries := (reconcile cards shownKeys hiddenKeys).1,
                hiddenDashboardEntries := (reconcile cards shownKeys hiddenKeys).2,
                localStorage := st.localStorage } := by
  have ht : truthy (some raw) = true := by
    unfold truthy
    simpa using hne
  have hmig : legacyMigration JSON_parse raw st.localStorage = .normal st.localStorage := by
    unfold legacyMigration
    rw [if_neg (by rw [hcur]; simp)]
  unfold load
  rw [hraw, if_pos ht]
  simp only [Option.getD_some, hmig]
  rw [hraw]
  have hs : parseItem JSON_parse (some raw) = some shownKeys := hshown
  rw [hs]
  simp only [hhidden]

/-! ## Migration -/

/-- C5: a stored legacy sequence `before ++ ["hidden-below"] ++ after`, with
`before` the keys ahead of the sentinel, is split by the legacy block into the
shown keys `before` and the hidden keys `after`, the sentinel dropped, and both
sequences are written back; `load` then reconciles exactly these two
sequences. `JSON_parse` is assumed to read back the three serialised
sequences involved. -/
theorem legacy_split (JSON_parse : String → Option (List String)) (cards : List Card)
    (narrow : Bool) (st : Home) (before after : List String)
    (hbefore : "hidden-below" ∉ before)
    (hstored : st.localStorage.personalizedDashboard =
      some (JSON_stringify (before ++ "hidden-below" :: after)))
    (hparse : JSON_parse (JSON_stringify (before ++ "hidden-below" :: after)) =
      some (before ++ "hidden-below" :: after))
    (hparseShown : JSON_parse (JSON_stringify before) = some before)
    (hparseHidden : JSON_parse (JSON_stringify after) = some after) :
    legacyMigration JSON_parse (JSON_stringify (before ++ "hidden-below" :: after))
        st.localStorage =
      .normal { personalizedDashboard := some (JSON_stringify before),
                personalizedDashboardHidden := some (JSON_stringify after),
                writes := st.localStorage.writes + 2 } ∧
    load JSON_parse cards narrow st =
      .normal { shownDashboardEntries := (reconcile cards before after).1,
                hiddenDashboardEntries := (reconcile cards before after).2,
                localStorage :=
                  { personalizedDashboard := some (JSON_stringify before),
                    personalizedDashboardHidden := some (JSON_stringify after),
                    writes := st.localStorage.writes + 2 } } := by
  have hmig := legacyMigration_legacy JSON_parse st.localStorage before after hbefore hparse
  refine ⟨hmig, ?_⟩
  unfold load
  rw [hstored, if_pos (truthy_stringify _)]
  simp only [Option.getD_some, hmig, parseItem, hparseShown, hparseHidden]

/-- Instance of C5 on the example of the specification: the stored sequence
`["a","b","hidden-below","c"]` with catalog `{a, b, c}` migrates to shown
`["a","b"]` and hidden `["c"]`, both written back. -/
theorem legacy_split_witness :
    "hidden-below" ∉ ["a", "b"] ∧
      JSON_parse_keys (JSON_stringify (["a", "b"] ++ "hidden-below" :: ["c"])) =
        some (["a", "b"] ++ "hidden-below" :: ["c"]) ∧
      JSON_parse_keys (JSON_stringify ["a", "b"]) = some ["a", "b"] ∧
      JSON_parse_keys (JSON_stringify ["c"]) = some ["c"] ∧
      load JSON_parse_keys catalogABC false
          (Home.initial catalogABC
            ⟨some (JSON_stringify (["a", "b"] ++ "hidden-below" :: ["c"])), none, 0⟩) =
        .normal { shownDashboardEntries := [⟨"a", "A", false⟩, ⟨"b", "B", false⟩],
                  hiddenDashboardEntries := [⟨"c", "C", false⟩],
                  localStorage := ⟨some "[\"a\",\"b\"]", some "[\"c\"]", 2⟩ } :=
  ⟨by decide, by decide, by decide, by decide,
   (legacy_split JSON_parse_keys catalogABC false
      (Home.initial catalogABC
        ⟨some (JSON_stringify (["a", "b"] ++ "hidden-below" :: ["c"])), none, 0⟩)
      ["a", "b"] ["c"] (by decide) rfl (by decide) (by decide) (by decide)).2.trans
    (by decide)⟩

/-- C6, as stated, fails: the legacy test looks for the text `hidden-below`
anywhere in the stored shown value. The v2 pair shown `["a","hidden-below-2"]`,
hidden `["b"]`, none of whose keys is the sentinel, is split again: shown
becomes `["a"]`, hidden becomes `["a","hidden-below-2"]`, with two writes. -/
theorem legacyMigration_resplits_v2 :
    legacyMigration JSON_parse_keys (JSON_stringify ["a", "hidden-below-2"])
        ⟨some (JSON_stringify ["a", "hidden-below-2"]), some (JSON_stringify ["b"]), 0⟩ =
      .normal ⟨some "[\"a\"]", some "[\"a\",\"hidden-below-2\"]", 2⟩ ∧
    legacyMigration JSON_parse_keys (JSON_stringify ["a", "hidden-below-2"])
        ⟨some (JSON_stringify ["a", "hidden-below-2"]), some (JSON_stringify ["b"]), 0⟩ ≠
      .normal ⟨some (JSON_stringify ["a", "hidden-below-2"]), some (JSON_stringify ["b"]), 0⟩ := by
  decide

/-- C6, amended: when no persisted shown key contains the text `hidden-below`,
the legacy block leaves both stored values as they are and writes nothing,
whatever the hidden value holds and whatever `JSON.parse` would answer; running
it again on its own output changes nothing either. -/
theorem legacyMigration_passes_v2 (JSON_parse : String → Option (List String))
    (ls : LocalStorage) (shownKeys : List String)
    (hno : ∀ k ∈ shownKeys, includes k "hidden-below" = false) :
    legacyMigration JSON_parse (JSON_stringify shownKeys) ls = .normal ls ∧
      ∀ ls2, legacyMigration JSON_parse (JSON_stringify shownKeys) ls = .normal ls2 →
        legacyMigration JSON_parse (JSON_stringify shownKeys) ls2 = .normal ls2 :=
  ⟨legacyMigration_current JSON_parse ls shownKeys hno,
   fun ls2 _ => legacyMigration_current JSON_parse ls2 shownKeys hno⟩

/-- Instance of the amended C6 on the keys the page itself writes. -/
theorem legacyMigration_passes_v2_witness :
    (∀ k ∈ ["mensa", "timetable"], includes k "hidden-below" = false) ∧
      legacyMigration JSON_parse_keys (JSON_stringify ["mensa", "timetable"])
          ⟨some (JSON_stringify ["mensa", "timetable"]), some (JSON_stringify ["rooms"]), 0⟩ =
        .normal ⟨some (JSON_stringify ["mensa", "timetable"]),
          some (JSON_stringify ["rooms"]), 0⟩ :=
  ⟨by decide,
   (legacyMigration_passes_v2 JSON_parse_keys
      ⟨some (JSON_stringify ["mensa", "timetable"]), some (JSON_stringify ["rooms"]), 0⟩
      ["mensa", "timetable"] (by decide)).1⟩

/-! ## First run -/

/-- C10 at the failing input: with nothing persisted, on a wide screen `load`
leaves the initial layout (all catalog cards shown, none hidden); on a narrow
screen it throws a `ReferenceError` at the call of the undeclared
`setDashboardEntries`, so the layout stays the initial one, all eleven cards
shown and none hidden, instead of the cards without `desktopOnly` shown and the
`desktopOnly` cards hidden. -/
theorem load_first_run (JSON_parse : String → Option (List String)) :
    load JSON_parse ALL_DASHBOARD_CARDS false
        (Home.initial ALL_DASHBOARD_CARDS ⟨none, none, 0⟩) =
      .normal (Home.initial ALL_DASHBOARD_CARDS ⟨none, none, 0⟩) ∧
    load JSON_parse ALL_DASHBOARD_CARDS true
        (Home.initial ALL_DASHBOARD_CARDS ⟨none, none, 0⟩) =
      .thrown .ReferenceError (Home.initial ALL_DASHBOARD_CARDS ⟨none, none, 0⟩) ∧
    (Home.initial ALL_DASHBOARD_CARDS ⟨none, none, 0⟩).shownDashboardEntries ≠
      ALL_DASHBOARD_CARDS.filter (fun x => !x.desktopOnly) ∧
    (Home.initial ALL_DASHBOARD_CARDS ⟨none, none, 0⟩).hiddenDashboardEntries ≠
      ALL_DASHBOARD_CARDS.filter (fun x => x.desktopOnly) := by
  refine ⟨rfl, rfl, by decide, by decide⟩

/-! ## Corrupt stored values -/

/-- C11, as stated, fails: `load` has no handler around `JSON.parse`. With the
stored shown value `not json`, and with the stored shown value `["mensa"]` and
no stored hidden value, `load` throws a `SyntaxError`. -/
theorem corrupt_store_makes_load_throw :
    load JSON_parse_keys ALL_DASHBOARD_CARDS false
        (Home.initial ALL_DASHBOARD_CARDS ⟨some "not json", none, 0⟩) =
      .thrown .SyntaxError (Home.initial ALL_DASHBOARD_CARDS ⟨some "not json", none, 0⟩) ∧
    load JSON_parse_keys ALL_DASHBOARD_CARDS false
        (Home.initial ALL_DASHBOARD_CARDS ⟨some "[\"mensa\"]", none, 0⟩) =
      .thrown .SyntaxError (Home.initial ALL_DASHBOARD_CARDS ⟨some "[\"mensa\"]", none, 0⟩) := by
  decide

/-- C11, amended: when the stored shown value is a non-empty text that
`JSON.parse` rejects, or a non-empty text without `hidden-below` whose hidden
companion is absent or rejected, `load` throws a `SyntaxError` before any
setter or write: state and store are exactly as before the call, so a page
that has just been mounted keeps all catalog cards shown and none hidden. -/
theorem load_throws_on_corrupt_store (JSON_parse : String → Option (List String))
    (cards : List Card) (narrow : Bool) (st : Home) (raw : String)
    (hraw : st.localStorage.personalizedDashboard = some raw) (hne : raw ≠ "")
    (hbad : JSON_parse raw = none ∨
      (includes raw "hidden-below" = false ∧
        parseItem JSON_parse st.localStorage.personalizedDashboardHidden = none)) :
    load JSON_parse cards narrow st = .thrown .SyntaxError st := by
  have ht : truthy (some raw) = true := by
    unfold truthy
    simpa using hne
  have hst : ({ st with localStorage := st.localStorage } : Home) = st := by
    cases st; rfl
  unfold load
  rw [hraw, if_pos ht]
  simp only [Option.getD_some]
  by_cases hinc : includes raw "hidden-below" = true
  · -- the legacy block runs, so the first disjunct holds: its `JSON.parse` throws
    have hnone : JSON_parse raw = none := by
      rcases hbad with h | h
      · exact h
      · rw [h.1] at hinc; exact absurd hinc (by simp)
    have hmig : legacyMigration JSON_parse raw st.localStorage =
        .thrown .SyntaxError st.localStorage := by
      unfold legacyMigration
      rw [if_pos hinc, hnone]
    rw [hmig]
  · have hmig : legacyMigration JSON_parse raw st.localStorage = .normal st.localStorage := by
      unfold legacyMigration
      rw [if_neg hinc]
    rw [hmig]
    simp only [hraw]
    have hp : parseItem JSON_parse (some raw) = JSON_parse raw := rfl
    rw [hp]
    cases hs : JSON_parse raw with
    | none => rfl
    | some shownKeys =>
      rcases hbad with h | h
      · rw [hs] at h; exact absurd h (by simp)
      · simp only [h.2]

/-- Instance of the amended C11 on a freshly mounted page with the stored shown
value `not json`: the layout after the throw is the full catalog, none hidden. -/
theorem load_throws_on_corrupt_store_witness :
    (Home.initial ALL_DASHBOARD_CARDS ⟨some "not json", none, 0⟩).localStorage.personalizedDashboard =
        some "not json" ∧
      "not json" ≠ "" ∧
      JSON_parse_keys "not json" = none ∧
      load JSON_parse_keys ALL_DASHBOARD_CARDS true
          (Home.initial ALL_DASHBOARD_CARDS ⟨some "not json", none, 0⟩) =
        .thrown .SyntaxError
          { shownDashboardEntries := ALL_DASHBOARD_CARDS, hiddenDashboardEntries := [],
            localStorage := ⟨some "not json", none, 0⟩ } :=
  ⟨rfl, by decide, by decide,
   load_throws_on_corrupt_store JSON_parse_keys ALL_DASHBOARD_CARDS true
     (Home.initial ALL_DASHBOARD_CARDS ⟨some "not json", none, 0⟩) "not json" rfl (by decide)
     (Or.inl (by decide))⟩

end Dashboard
